import Mathlib

/-!
Verification of the blackjack composition engine.

Shallow embedding of the repository's Rust sources:
* `src/hand/canonical_hand.rs` (CanonicalHand, its add-rank operator, from_cards, total)
* `src/perfect_strategy.rs` (ev, ev_stand, ev_hit, ev_double, ev_split,
  p_next_card_is_each, dealer_probabilities_beating, perfect_insure)
* `src/perfect_strategy/hashed_hand.rs` (the dealer hand summary)
* `src/basic_strategy.rs` (BasicStrategyChart::builtin, basic_plays, context_basic_play)
* `src/rules.rs` (BlackjackRules and the two canonical presets)
* `src/deck.rs` (Deck as a rank histogram)

Machine floats (f64) are embedded as exact rationals; the probability values
computed by the engine are finite sums and quotients of card counts, and the
claims under study are about the algebraraic structure of those computations.
The value f64::NEG_INFINITY used for disallowed actions is embedded as the
bottom element of `WithBot Rat`.  A Rust panic (assert failure, unwrap on a
missing chart entry, explicit panic) is embedded as `Option.none`.
-/

namespace BJ

/-- Rank alphabet from `src/types.rs`: `pub type Rank = u32`, ten is encoded
as 0 (`pub const T: Rank = 0`) and ace as 1 (`pub const A: Rank = 1`); the
numeric ranks 2..9 are themselves.  Embedded as a natural number (`Rank`
is kept as a transparent alias). -/
abbrev Rank : Type := Nat

/-- `pub const T: Rank = 0;` from `src/types.rs`. -/
def T : Nat := 0

/-- `pub const A: Rank = 1;` from `src/types.rs`. -/
def A : Nat := 1

/-- `RANKS = 0..=9` from `src/types.rs`, as the list of valid rank codes. -/
def RANKS : List Nat := [0, 1, 2, 3, 4, 5, 6, 7, 8, 9]

/-- Modelled from the spec: `additive_value` is declared in
`src/types.rs` by the imports of `src/hand/canonical_hand.rs` but its body is
not among the given sources.  Spec section 3: a rank supports "additive
value" = 10 for T, 1 for A, n for n in 2..9.  This also matches the in-source
helper `card_value` of `src/bj_helper.rs`.  On arguments outside the rank
alphabet it behaves like the catch-all match arm `n => n`. -/
def additive_value (r : Nat) : Nat :=
  if r = T then 10 else if r = A then 1 else r

/-- `enum CanonicalHand` from `src/hand/canonical_hand.rs`. -/
inductive CanonicalHand : Type where
  | Empty : CanonicalHand
  | Single : Nat → CanonicalHand
  | Hard2Card : Nat → CanonicalHand
  | Hard3PlusCard : Nat → CanonicalHand
  | Soft2Card : Nat → CanonicalHand
  | Soft3PlusCard : Nat → CanonicalHand
  | Pair : Nat → CanonicalHand
  | Blackjack : CanonicalHand
  | Busted : CanonicalHand
deriving DecidableEq, Repr

namespace CanonicalHand

/-- The `Hard2Card(prev) | Hard3PlusCard(prev)` arm of
`impl ops::Add<Rank> for CanonicalHand` (src/hand/canonical_hand.rs:59-68). -/
def addHardTotal (prev : Nat) (rhs : Nat) : CanonicalHand :=
  let new_total := prev + additive_value rhs
  if rhs = A ∧ prev < 11 then Soft3PlusCard (new_total + 10)
  else if new_total ≤ 21 then Hard3PlusCard new_total
  else Busted

/-- The `Soft2Card(prev) | Soft3PlusCard(prev)` arm of
`impl ops::Add<Rank> for CanonicalHand` (src/hand/canonical_hand.rs:70-76). -/
def addSoftTotal (prev : Nat) (rhs : Nat) : CanonicalHand :=
  let new_total := prev + additive_value rhs
  if new_total ≤ 21 then Soft3PlusCard new_total
  else Hard3PlusCard (new_total - 10)

/-- `impl ops::Add<Rank> for CanonicalHand` (src/hand/canonical_hand.rs:43-91).
The `Pair` and `Blackjack` arms delegate to the `Hard`/`Soft` arms exactly as
the source does (`Soft3PlusCard(12) + additive_value(n)` passes an additive
value where a rank is expected, faithfully reproduced here). -/
def addRank : CanonicalHand → Nat → CanonicalHand
  | Empty, r => Single r
  | Single l, r =>
      if (l = A ∧ r = T) ∨ (l = T ∧ r = A) then Blackjack
      else if l = r then Pair l
      else if l = A then Soft2Card (11 + r)
      else if r = A then Soft2Card (11 + l)
      else Hard2Card (additive_value l + additive_value r)
  | Hard2Card prev, r => addHardTotal prev r
  | Hard3PlusCard prev, r => addHardTotal prev r
  | Soft2Card prev, r => addSoftTotal prev r
  | Soft3PlusCard prev, r => addSoftTotal prev r
  | Pair p, r =>
      if p = A ∧ r = T then Hard3PlusCard 12
      else if p = A then addSoftTotal 12 (additive_value r)
      else addHardTotal (additive_value p * 2) (additive_value r)
  | Blackjack, r => addSoftTotal 21 r
  | Busted, _ => Busted

/-- `CanonicalHand::from_cards` (src/hand/canonical_hand.rs:94-96):
`hand.cards.iter().fold(Empty, |c, r| c + *r)`.  The card sequence of the
`Hand` is embedded as a list of ranks. -/
def from_cards (cards : List Nat) : CanonicalHand :=
  cards.foldl addRank Empty

/-- `CanonicalHand::total` (src/hand/canonical_hand.rs:98-107).  The `Busted`
arm panics (`panic!("Tried to get total score of a busted hand!")`), embedded
as `none`. -/
def total : CanonicalHand → Option Nat
  | Empty => some 0
  | Single r => some r
  | Hard2Card n => some n
  | Hard3PlusCard n => some n
  | Soft2Card n => some n
  | Soft3PlusCard n => some n
  | Pair r => some (2 * r)
  | Blackjack => some 21
  | Busted => none

/-- Well-formedness of a summary: any stored rank is a valid rank code.
Hands folded from sequences over the rank alphabet satisfy this. -/
def WF : CanonicalHand → Prop
  | Single r => r ≤ 9
  | Pair r => r ≤ 9
  | _ => True

instance : DecidablePred WF := by
  intro h
  cases h <;> simp [WF] <;> infer_instance

theorem wf_addRank {h : CanonicalHand} {r : Nat} (hw : WF h) (hr : r ≤ 9) :
    WF (h.addRank r) := by
  cases h <;>
    simp only [addRank, addHardTotal, addSoftTotal] <;>
    (try split_ifs) <;>
    simp_all [WF]

theorem additive_value_pos (a : Nat) : 1 ≤ additive_value a := by
  unfold additive_value T A
  split_ifs <;> omega

theorem additive_value_le (a : Nat) (ha : a ≤ 9) : additive_value a ≤ 10 := by
  unfold additive_value T A
  split_ifs <;> omega

theorem addHardTotal_swap_small :
    ∀ (n : Fin 21) (a b : Fin 10),
      (addHardTotal n.val a.val).addRank b.val
        = (addHardTotal n.val b.val).addRank a.val := by
  decide

theorem addSoftTotal_swap_small :
    ∀ (n : Fin 21) (a b : Fin 10),
      (addSoftTotal n.val a.val).addRank b.val
        = (addSoftTotal n.val b.val).addRank a.val := by
  decide

theorem addHardTotal_large (n : Nat) (a : Nat) (hn : 21 ≤ n) :
    addHardTotal n a = Busted := by
  have := additive_value_pos a
  simp only [addHardTotal]
  split_ifs <;> first | rfl | omega

theorem addHardTotal_swap (n : Nat) {a b : Nat} (ha : a ≤ 9) (hb : b ≤ 9) :
    (addHardTotal n a).addRank b = (addHardTotal n b).addRank a := by
  by_cases hn : n ≤ 20
  · exact addHardTotal_swap_small ⟨n, by omega⟩ ⟨a, by omega⟩ ⟨b, by omega⟩
  · rw [addHardTotal_large n a (by omega), addHardTotal_large n b (by omega)]
    rfl

theorem addSoftTotal_swap (n : Nat) {a b : Nat} (ha : a ≤ 9) (hb : b ≤ 9) :
    (addSoftTotal n a).addRank b = (addSoftTotal n b).addRank a := by
  by_cases hn : n ≤ 20
  · exact addSoftTotal_swap_small ⟨n, by omega⟩ ⟨a, by omega⟩ ⟨b, by omega⟩
  · have hva1 := additive_value_pos a
    have hva2 := additive_value_le a ha
    have hvb1 := additive_value_pos b
    have hvb2 := additive_value_le b hb
    simp only [addSoftTotal]
    split_ifs <;>
      (try omega) <;>
      simp only [addRank, addHardTotal, addSoftTotal] <;>
      (try split_ifs) <;>
      first
        | rfl
        | omega
        | exact congrArg _ (by omega)

theorem addRank_swap_small :
    ∀ a b : Fin 10,
      ((Empty.addRank a.val).addRank b.val = (Empty.addRank b.val).addRank a.val) ∧
      (∀ l : Fin 10, ((Single l.val).addRank a.val).addRank b.val
          = ((Single l.val).addRank b.val).addRank a.val) ∧
      (∀ p : Fin 10, ((Pair p.val).addRank a.val).addRank b.val
          = ((Pair p.val).addRank b.val).addRank a.val) ∧
      ((Blackjack.addRank a.val).addRank b.val
          = (Blackjack.addRank b.val).addRank a.val) := by
  decide

/-- The add-rank operator is left-commutative on well-formed summaries and
valid ranks: adding two cards in either order yields the same summary. -/
theorem addRank_swap (h : CanonicalHand) (hw : WF h) {a b : Nat}
    (ha : a ≤ 9) (hb : b ≤ 9) :
    (h.addRank a).addRank b = (h.addRank b).addRank a := by
  cases h with
  | Empty => exact (addRank_swap_small ⟨a, by omega⟩ ⟨b, by omega⟩).1
  | Single l =>
      have hl : l ≤ 9 := hw
      exact (addRank_swap_small ⟨a, by omega⟩ ⟨b, by omega⟩).2.1 ⟨l, by omega⟩
  | Pair p =>
      have hp : p ≤ 9 := hw
      exact (addRank_swap_small ⟨a, by omega⟩ ⟨b, by omega⟩).2.2.1 ⟨p, by omega⟩
  | Blackjack => exact (addRank_swap_small ⟨a, by omega⟩ ⟨b, by omega⟩).2.2.2
  | Busted => rfl
  | Hard2Card n => exact addHardTotal_swap n ha hb
  | Hard3PlusCard n => exact addHardTotal_swap n ha hb
  | Soft2Card n => exact addSoftTotal_swap n ha hb
  | Soft3PlusCard n => exact addSoftTotal_swap n ha hb

/-- Folding the add-rank operator over a list of valid ranks is invariant
under permutation, for any well-formed starting summary. -/
theorem foldl_addRank_perm {cs cs' : List Nat} (p : cs.Perm cs') :
    ∀ h : CanonicalHand, WF h → (∀ r ∈ cs, r ≤ 9) →
      cs.foldl addRank h = cs'.foldl addRank h := by
  induction p with
  | nil => intro h _ _; rfl
  | cons x _ ih =>
      intro h hw hv
      simp only [List.foldl_cons]
      exact ih _ (wf_addRank hw (hv x (List.mem_cons_self x _)))
        (fun r hr => hv r (List.mem_cons_of_mem x hr))
  | swap x y t =>
      intro h hw hv
      simp only [List.foldl_cons]
      rw [addRank_swap h hw (hv x (by simp)) (hv y (by simp))]
  | trans p₁ p₂ ih₁ ih₂ =>
      intro h hw hv
      rw [ih₁ h hw hv, ih₂ h hw (fun r hr => hv r (p₁.mem_iff.mpr hr))]

end CanonicalHand

/-- C1: For every finite sequence cs of ranks and every permutation cs' of
cs, canonicalization (folding Empty over the sequence with the CanonicalHand
add-rank operator, as CanonicalHand::from_cards does) yields the same result:
CanonicalHand::from_cards(cs) = CanonicalHand::from_cards(cs'). -/
theorem C1_from_cards_perm_invariant (cs cs' : List Nat) (hperm : cs.Perm cs')
    (hvalid : ∀ r ∈ cs, r ≤ 9) :
    CanonicalHand.from_cards cs = CanonicalHand.from_cards cs' :=
  CanonicalHand.foldl_addRank_perm hperm CanonicalHand.Empty trivial hvalid

theorem C1_witness :
    ([1, 0, 5] : List Nat).Perm [5, 1, 0] ∧
    (∀ r ∈ ([1, 0, 5] : List Nat), r ≤ 9) ∧
    CanonicalHand.from_cards [1, 0, 5] = CanonicalHand.from_cards [5, 1, 0] :=
  ⟨by decide, by decide, C1_from_cards_perm_invariant _ _ (by decide) (by decide)⟩

/-- C5: the claim states that CanonicalHand::total returns the spec table's
closed-form totals, in particular total(Single(r)) = value(r) and
total(Pair(r)) = 2 * value(r), so total(Single(T)) = 10 and
total(Pair(T)) = 20.  The code instead returns the raw rank encoding
(`Single(r) => *r`, `Pair(r) => 2 * r` with T encoded as 0): evaluating the
embedded code at the failing inputs Single(T) and Pair(T) yields 0 and 0,
not the 10 and 20 the claim requires. -/
theorem C5_total_single_pair_ten_eval :
    CanonicalHand.total (CanonicalHand.Single T) = some 0 ∧
    CanonicalHand.total (CanonicalHand.Pair T) = some 0 ∧
    CanonicalHand.total (CanonicalHand.Single T) ≠ some (additive_value T) ∧
    CanonicalHand.total (CanonicalHand.Pair T) ≠ some (2 * additive_value T) := by
  decide

/-- `Deck` from `src/deck.rs`: `card_counts: [u32; 10]`, the number of cards
of each rank remaining.  Embedded as a histogram function on rank codes; all
deck operations only touch indices 0..9. -/
abbrev Deck : Type := Nat → Nat

namespace Deck

/-- `Deck::len` (src/deck.rs:14-16): `card_counts.iter().sum()`. -/
def len (d : Deck) : Nat := (RANKS.map d).sum

/-- `Deck::removed` (src/deck.rs:39-43): a copy with one card of the given
rank removed.  The u32 decrement of the source underflows (a programming
error, per the spec's deck invariant) exactly where this truncates at 0;
the solvers only remove ranks whose count is positive. -/
def removed (d : Deck) (r : Nat) : Deck :=
  fun x => if x = r then d x - 1 else d x

end Deck

/-- The local `total_next_card_possibilities` of `p_next_card_is_each`
(src/perfect_strategy.rs:209-215): the deck size minus the excluded tens
and/or aces. -/
def pNextDenom (deck : Deck) (can_be_ten can_be_ace : Bool) : Nat :=
  Deck.len deck - (if can_be_ten then 0 else deck T)
    - (if can_be_ace then 0 else deck A)

/-- The probability array built by the loop of `p_next_card_is_each`
(src/perfect_strategy.rs:217-225): zero for an absent or excluded rank,
otherwise the rank's count over the reduced sample space. -/
def pNextFun (deck : Deck) (can_be_ten can_be_ace : Bool) : Nat → Rat :=
  fun next_card =>
    if deck next_card = 0 ∨ (can_be_ten = false ∧ next_card = T)
        ∨ (can_be_ace = false ∧ next_card = A) then 0
    else (deck next_card : Rat) / (pNextDenom deck can_be_ten can_be_ace : Rat)

/-- `p_next_card_is_each` (src/perfect_strategy.rs:206-233): probabilities
that the next card out of a deck is each rank, with tens or aces optionally
excluded from the sample space.  The trailing assertion that the entries sum
to 1 within 1e-5 (a panic on failure) is embedded as returning `none`. -/
def p_next_card_is_each (deck : Deck) (can_be_ten can_be_ace : Bool) :
    Option (Nat → Rat) :=
  if 0.99999 < (RANKS.map (pNextFun deck can_be_ten can_be_ace)).sum
      ∧ (RANKS.map (pNextFun deck can_be_ten can_be_ace)).sum < 1.00001
  then some (pNextFun deck can_be_ten can_be_ace)
  else none

/-- Modelled from the spec: the type `TotalHashedDealerHand` imported by
`src/perfect_strategy.rs` from `crate::hand::total_hashed` is not among the
given sources (only `pub mod total_hashed;` in `src/hand.rs` is).  Its shape
follows spec section 3, "DealerHandHash: {total, is_soft, is_one_card}", and
coincides field-for-field with the in-source `HashedDealerHand` of
`src/perfect_strategy/hashed_hand.rs`, from which `from_single_card` and the
add-rank operation below are transcribed. -/
structure TotalHashedDealerHand where
  total : Nat
  is_soft : Bool
  is_one : Bool
deriving DecidableEq, Repr

namespace TotalHashedDealerHand

/-- `HashedDealerHand::from_single_card` (src/perfect_strategy/hashed_hand.rs:
68-79): total 10 for a ten, 11 for an ace, the pip value otherwise; soft iff
the card is an ace; exactly one known card. -/
def from_single_card (rank : Nat) : TotalHashedDealerHand :=
  { total := if rank = T then 10 else if rank = A then 11 else rank
    is_soft := rank == A
    is_one := true }

/-- `impl ops::Add<Rank> for HashedDealerHand`
(src/perfect_strategy/hashed_hand.rs:121-146): add the card's additive value,
demote a soft total that went over 21, promote a newly drawn ace to 11 when
that fits, and clear the one-card flag. -/
def addRank (h : TotalHashedDealerHand) (rhs : Nat) : TotalHashedDealerHand :=
  let t1 := h.total + additive_value rhs
  let t2 := if 21 < t1 ∧ h.is_soft = true then t1 - 10 else t1
  let s2 := if 21 < t1 ∧ h.is_soft = true then false else h.is_soft
  let t3 := if rhs = A ∧ t2 ≤ 11 then t2 + 10 else t2
  let s3 := if rhs = A ∧ t2 ≤ 11 then true else s2
  { total := t3, is_soft := s3, is_one := false }

end TotalHashedDealerHand

/-- The next-card distribution used by the recursive case of
`dealer_probabilities_beating` (src/perfect_strategy.rs:253-257): the next
card cannot be a ten on a one-card 11 and cannot be an ace on a one-card 10,
because the dealer already checked for Blackjack. -/
def dealerNextCardProbs (dealer_hand : TotalHashedDealerHand) (deck : Deck) :
    Option (Nat → Rat) :=
  p_next_card_is_each deck
    (!(dealer_hand.is_one && dealer_hand.total == 11))
    (!(dealer_hand.is_one && dealer_hand.total == 10))

/-- `dealer_probabilities_beating` (src/perfect_strategy.rs:237-274):
probability that the dealer beats / pushes against the given target score.
The global `RULES.hit_soft_17` (the `RULES` constant lives at the crate root,
which is not among the given sources) is passed explicitly.  The recursion is
driven by a fuel parameter; fuel exhaustion yields `none`, and every
in-source call site is reached with the terminating deck-size measure. -/
def dealer_probabilities_beating :
    Nat → Bool → Nat → TotalHashedDealerHand → Deck → Option (Rat × Rat)
  | 0, _, _, _, _ => none
  | fuel+1, hit_soft_17, player_hand_to_beat, dealer_hand, deck =>
    if 18 ≤ dealer_hand.total
        ∨ (17 ≤ dealer_hand.total
            ∧ (hit_soft_17 = false ∨ dealer_hand.is_soft = false)) then
      if 21 < player_hand_to_beat then some (1, 0)
      else if 21 < dealer_hand.total then some (0, 0)
      else if player_hand_to_beat < dealer_hand.total then some (1, 0)
      else if dealer_hand.total = player_hand_to_beat then some (0, 1)
      else some (0, 0)
    else do
      let p_next_card_is ← dealerNextCardProbs dealer_hand deck
      RANKS.foldlM
        (fun acc next_card =>
          if p_next_card_is next_card ≤ 0 then pure acc
          else do
            let res ← dealer_probabilities_beating fuel hit_soft_17
              player_hand_to_beat (dealer_hand.addRank next_card)
              (deck.removed next_card)
            pure (acc.1 + res.1 * p_next_card_is next_card,
                  acc.2 + res.2 * p_next_card_is next_card))
        ((0 : Rat), (0 : Rat))

/-- `perfect_insure` (src/perfect_strategy.rs:52-59): insurance EV over the
deck including the dealer's down card; take the bet iff the EV is positive. -/
def perfect_insure (deck : Deck) : Option (Bool × Rat) := do
  let p ← p_next_card_is_each deck true true
  let p_insurance_win := p T
  let p_insurance_lose := 1 - p_insurance_win
  let ev := 1 * p_insurance_win - 0.5 * p_insurance_lose
  pure (decide (0 < ev), ev)

/-- C2: For every player target, dealer hand, and deck, whenever
dealer_probabilities_beating reaches a terminal dealer state (dealer total at
least 18, or at least 17 with soft-17 hitting disabled or a hard hand), it
returns the pair (p_dealer_win, p_push) given by comparing the dealer total
to the target: a target above 21 forces (1,0); a busted dealer gives (0,0);
otherwise greater gives (1,0), equal gives (0,1), less gives (0,0). -/
theorem C2_dealer_terminal_payout (fuel : Nat) (hit_soft_17 : Bool)
    (target : Nat) (dh : TotalHashedDealerHand) (deck : Deck)
    (hterm : 18 ≤ dh.total
      ∨ (17 ≤ dh.total ∧ (hit_soft_17 = false ∨ dh.is_soft = false))) :
    dealer_probabilities_beating (fuel+1) hit_soft_17 target dh deck =
      some (if 21 < target then ((1 : Rat), (0 : Rat))
            else if 21 < dh.total then (0, 0)
            else if target < dh.total then (1, 0)
            else if dh.total = target then (0, 1)
            else (0, 0)) := by
  rw [dealer_probabilities_beating, if_pos hterm]
  split_ifs <;> rfl

theorem C2_witness :
    (18 ≤ (20 : Nat)
      ∨ (17 ≤ (20 : Nat) ∧ (true = false ∨ false = false))) ∧
    dealer_probabilities_beating 1 true 22 ⟨20, false, false⟩ (fun _ => 0) =
      some (if 21 < (22 : Nat) then ((1 : Rat), (0 : Rat))
            else if 21 < (20 : Nat) then (0, 0)
            else if 22 < (20 : Nat) then (1, 0)
            else if (20 : Nat) = 22 then (0, 1)
            else (0, 0)) :=
  ⟨by decide,
   C2_dealer_terminal_payout 0 true 22 ⟨20, false, false⟩ (fun _ => 0)
     (by decide)⟩

/-- C3: In the recursive case of dealer_probabilities_beating, for every
deck: on a one-card dealer 10, aces are excluded and the per-rank
probabilities are rescaled over the non-ace cards; on a one-card 11, tens are
excluded and rescaled likewise; in every other dealer state no rank is
excluded and each rank's probability is its count over the deck size. -/
theorem C3_dealer_no_blackjack_adjustment (hit_soft_17 : Bool)
    (dh : TotalHashedDealerHand) (deck : Deck) (p : Nat → Rat)
    (hrec : ¬(18 ≤ dh.total
      ∨ (17 ≤ dh.total ∧ (hit_soft_17 = false ∨ dh.is_soft = false))))
    (hp : dealerNextCardProbs dh deck = some p) :
    (dh.is_one = true ∧ dh.total = 10 →
      p A = 0 ∧ ∀ r ∈ RANKS, r ≠ A →
        p r = (deck r : Rat) / ((Deck.len deck - deck A : Nat) : Rat)) ∧
    (dh.is_one = true ∧ dh.total = 11 →
      p T = 0 ∧ ∀ r ∈ RANKS, r ≠ T →
        p r = (deck r : Rat) / ((Deck.len deck - deck T : Nat) : Rat)) ∧
    (¬(dh.is_one = true ∧ (dh.total = 10 ∨ dh.total = 11)) →
      ∀ r ∈ RANKS, p r = (deck r : Rat) / ((Deck.len deck : Nat) : Rat)) := by
  unfold dealerNextCardProbs p_next_card_is_each at hp
  rcases ite_eq_iff.mp hp with ⟨hassert, hsome⟩ | ⟨hassert, hnone⟩
  on_goal 2 => exact Option.noConfusion hnone
  have hpdef := (Option.some.inj hsome).symm
  subst hpdef
  refine ⟨?_, ?_, ?_⟩
  · rintro ⟨h1, h2⟩
    have hc11 : (!(dh.is_one && dh.total == 11)) = true := by
      simp [h1, h2]
    have hc10 : (!(dh.is_one && dh.total == 10)) = false := by
      simp [h1, h2]
    rw [hc11, hc10]
    constructor
    · simp [pNextFun, T, A]
    · intro r hr hrA
      by_cases hz : deck r = 0
      · simp [pNextFun, hz]
      · simp [pNextFun, pNextDenom, hz, hrA]
  · rintro ⟨h1, h2⟩
    have hc11 : (!(dh.is_one && dh.total == 11)) = false := by
      simp [h1, h2]
    have hc10 : (!(dh.is_one && dh.total == 10)) = true := by
      simp [h1, h2]
    rw [hc11, hc10]
    constructor
    · simp [pNextFun, T, A]
    · intro r hr hrT
      by_cases hz : deck r = 0
      · simp [pNextFun, hz]
      · simp [pNextFun, pNextDenom, hz, hrT]
  · intro h3 r hr
    have hc11 : (!(dh.is_one && dh.total == 11)) = true := by
      cases ho : dh.is_one
      · simp
      · simp only [Bool.true_and, Bool.not_eq_true']
        simp only [beq_eq_false_iff_ne, ne_eq]
        intro hcon
        exact h3 ⟨ho, Or.inr hcon⟩
    have hc10 : (!(dh.is_one && dh.total == 10)) = true := by
      cases ho : dh.is_one
      · simp
      · simp only [Bool.true_and, Bool.not_eq_true']
        simp only [beq_eq_false_iff_ne, ne_eq]
        intro hcon
        exact h3 ⟨ho, Or.inl hcon⟩
    rw [hc11, hc10]
    by_cases hz : deck r = 0
    · rw [hz]; simp [pNextFun, hz]
    · simp [pNextFun, pNextDenom, hz]

/-- Concrete evaluation: on the uniform one-card-per-rank deck, the dealer
next-card distribution passes the sum assertion and is the unrestricted
per-rank distribution (a dealer hand of total 5 excludes nothing). -/
theorem uniform_deck_probs_eval :
    dealerNextCardProbs ⟨5, true, true⟩ (fun _ => 1)
      = some (pNextFun (fun _ => 1) true true) := by
  have hflag : dealerNextCardProbs ⟨5, true, true⟩ (fun _ => 1)
      = p_next_card_is_each (fun _ => 1) true true := rfl
  rw [hflag]
  unfold p_next_card_is_each
  split_ifs with hcond
  · rfl
  · exfalso
    apply hcond
    norm_num [pNextFun, pNextDenom, Deck.len, RANKS, T, A]

theorem C3_witness :
    (¬(18 ≤ (5 : Nat)
        ∨ (17 ≤ (5 : Nat) ∧ ((true : Bool) = false ∨ (true : Bool) = false)))) ∧
    (∀ r ∈ RANKS, pNextFun (fun _ => 1) true true r
        = (((fun _ => (1 : Nat)) r : Nat) : Rat)
            / ((Deck.len (fun _ => 1) : Nat) : Rat)) :=
  ⟨by decide,
   (C3_dealer_no_blackjack_adjustment true ⟨5, true, true⟩ (fun _ => 1)
      (pNextFun (fun _ => 1) true true)
      (by decide) uniform_deck_probs_eval).2.2 (by decide)⟩

/-- Concrete evaluation: on a deck of exactly 16 tens and 32 non-tens the
insurance EV is 0 and perfect_insure declines. -/
theorem insurance_even_money_deck_eval :
    perfect_insure (fun r => if r = 0 then 16 else if r = 2 then 32 else 0)
      = some (false, 0) := by
  unfold perfect_insure p_next_card_is_each
  norm_num [pNextFun, pNextDenom, Deck.len, RANKS, T, A]

/-- C7: perfect_insure takes insurance exactly when the probability that the
next card is a ten exceeds 1/3, equivalently when the insurance EV
1 * p_ten - 0.5 * (1 - p_ten) is strictly positive; on a deck of exactly
16 tens and 32 non-tens the EV is 0 and insurance is not taken. -/
theorem C7_perfect_insure_threshold (deck : Deck) (res : Bool × Rat)
    (h : perfect_insure deck = some res) :
    (res.2 = 1 * ((deck T : Rat) / (Deck.len deck : Rat))
      - 0.5 * (1 - (deck T : Rat) / (Deck.len deck : Rat))) ∧
    (res.1 = true ↔ 1/3 < (deck T : Rat) / (Deck.len deck : Rat)) ∧
    (res.1 = true ↔ 0 < res.2) ∧
    perfect_insure (fun r => if r = 0 then 16 else if r = 2 then 32 else 0)
      = some (false, 0) := by
  have hconc := insurance_even_money_deck_eval
  obtain ⟨b, q⟩ := res
  unfold perfect_insure at h
  cases hcase : p_next_card_is_each deck true true with
  | none => rw [hcase] at h; simp at h
  | some p =>
      rw [hcase] at h
      simp only [Option.bind_eq_bind, Option.some_bind, pure] at h
      rw [Option.some.injEq, Prod.mk.injEq] at h
      obtain ⟨h1, h2⟩ := h
      unfold p_next_card_is_each at hcase
      rcases ite_eq_iff.mp hcase with ⟨hassert, hsome⟩ | ⟨hassert, hnone⟩
      on_goal 2 => exact Option.noConfusion hnone
      have hpdef := (Option.some.inj hsome).symm
      have hpt : p T = (deck T : Rat) / (Deck.len deck : Rat) := by
        rw [hpdef]
        by_cases hz : deck T = 0
        · simp [pNextFun, pNextDenom, hz]
        · simp [pNextFun, pNextDenom, hz]
      subst h1
      subst h2
      dsimp only
      refine ⟨?_, ?_, ?_, hconc⟩
      · rw [hpt]
      · simp only [decide_eq_true_eq]
        rw [hpt]
        constructor
        · intro hlt
          nlinarith [hlt]
        · intro hlt
          nlinarith [hlt]
      · simp only [decide_eq_true_eq]

theorem C7_witness :
    perfect_insure (fun r => if r = 0 then 16 else if r = 2 then 32 else 0)
      = some (false, 0) ∧
    (((false, (0 : Rat)).1 = true) ↔ 0 < ((false, (0 : Rat)).2)) :=
  ⟨insurance_even_money_deck_eval,
   (C7_perfect_insure_threshold
      (fun r => if r = 0 then 16 else if r = 2 then 32 else 0)
      (false, 0) insurance_even_money_deck_eval).2.2.1⟩

/-- `enum Action` from `src/types.rs` (lines 35-41), in declaration order;
`enum_map::EnumMap` iterates its keys in this order. -/
inductive Action : Type where
  | Stand : Action
  | Hit : Action
  | Double : Action
  | Split : Action
deriving DecidableEq, Repr

/-- The EnumMap iteration order of `Action` keys: declaration order. -/
def actionOrder : List Action :=
  [Action.Stand, Action.Hit, Action.Double, Action.Split]

/-- Position of an action in the declaration (priority) order. -/
def Action.idx : Action → Nat
  | Action.Stand => 0
  | Action.Hit => 1
  | Action.Double => 2
  | Action.Split => 3

/-- `struct BlackjackRules` from `src/rules.rs` (lines 4-17); the f64
`blackjack_multiplier` is embedded as a rational. -/
structure BlackjackRules where
  decks : Nat
  shuffle_at_cards : Nat
  blackjack_multiplier : Rat
  hit_soft_17 : Bool
  split_hands_limit : Nat
  split_aces_limit : Nat
  double_any_hands : Bool
  double_hard_hands_thru_11 : Nat
  double_after_split : Bool
  hit_split_aces : Bool
deriving DecidableEq, Repr

/-- `RULES_1D_H17_NDAS_D10` from `src/rules.rs` (lines 19-30). -/
def RULES_1D_H17_NDAS_D10 : BlackjackRules :=
  { decks := 1
    shuffle_at_cards := 52 / 2
    blackjack_multiplier := 1.5
    hit_soft_17 := true
    split_hands_limit := 4
    split_aces_limit := 2
    double_any_hands := false
    double_hard_hands_thru_11 := 10
    double_after_split := false
    hit_split_aces := false }

/-- `RULES_6D_H17_DAS_DANY` from `src/rules.rs` (lines 32-43). -/
def RULES_6D_H17_DAS_DANY : BlackjackRules :=
  { decks := 6
    shuffle_at_cards := 52 + 52 / 2
    blackjack_multiplier := 1.5
    hit_soft_17 := true
    split_hands_limit := 4
    split_aces_limit := 2
    double_any_hands := true
    double_hard_hands_thru_11 := 10
    double_after_split := true
    hit_split_aces := false }

/-- `struct EvCalcResult` from `src/perfect_strategy.rs` (lines 14-22); the
per-action f64 EVs (NEG_INFINITY for disallowed actions) are embedded in
`WithBot Rat`. -/
structure EvCalcResult : Type where
  ev : WithBot Rat
  action : Action
  choices : Action → WithBot Rat

/-- The max-EV scan at the end of `ev` (src/perfect_strategy.rs:99-106):
start at Stand and replace the champion exactly on strictly greater EV,
iterating the EnumMap in declaration order. -/
def maxEvChoice (choices : Action → WithBot Rat) : Action :=
  actionOrder.foldl
    (fun max_ev_choice action =>
      if choices max_ev_choice < choices action then action else max_ev_choice)
    Action.Stand

theorem maxEvChoice_spec (c : Action → WithBot Rat) :
    (∀ a, c a ≤ c (maxEvChoice c)) ∧
    (∀ a, c a = c (maxEvChoice c) → (maxEvChoice c).idx ≤ a.idx) := by
  unfold maxEvChoice actionOrder
  simp only [List.foldl_cons, List.foldl_nil, ite_self]
  by_cases h1 : c Action.Stand < c Action.Hit
  · rw [if_pos h1]
    by_cases h2 : c Action.Hit < c Action.Double
    · rw [if_pos h2]
      by_cases h3 : c Action.Double < c Action.Split
      · rw [if_pos h3]
        refine ⟨?_, ?_⟩ <;> intro a <;> cases a <;> (try simp only [Action.idx])
        · exact le_of_lt (lt_trans (lt_trans h1 h2) h3)
        · exact le_of_lt (lt_trans h2 h3)
        · exact le_of_lt h3
        · exact le_refl _
        all_goals intro hEq
        · exact absurd hEq (ne_of_lt (lt_trans (lt_trans h1 h2) h3))
        · exact absurd hEq (ne_of_lt (lt_trans h2 h3))
        · exact absurd hEq (ne_of_lt h3)
        · omega
      · rw [if_neg h3]
        refine ⟨?_, ?_⟩ <;> intro a <;> cases a <;> (try simp only [Action.idx])
        · exact le_of_lt (lt_trans h1 h2)
        · exact le_of_lt h2
        · exact le_refl _
        · exact le_of_not_lt h3
        all_goals intro hEq
        · exact absurd hEq (ne_of_lt (lt_trans h1 h2))
        · exact absurd hEq (ne_of_lt h2)
        · omega
        · omega
    · rw [if_neg h2]
      by_cases h3 : c Action.Hit < c Action.Split
      · rw [if_pos h3]
        refine ⟨?_, ?_⟩ <;> intro a <;> cases a <;> (try simp only [Action.idx])
        · exact le_of_lt (lt_trans h1 h3)
        · exact le_of_lt h3
        · exact le_of_lt (lt_of_le_of_lt (le_of_not_lt h2) h3)
        · exact le_refl _
        all_goals intro hEq
        · exact absurd hEq (ne_of_lt (lt_trans h1 h3))
        · exact absurd hEq (ne_of_lt h3)
        · exact absurd hEq (ne_of_lt (lt_of_le_of_lt (le_of_not_lt h2) h3))
        · omega
      · rw [if_neg h3]
        refine ⟨?_, ?_⟩ <;> intro a <;> cases a <;> (try simp only [Action.idx])
        · exact le_of_lt h1
        · exact le_refl _
        · exact le_of_not_lt h2
        · exact le_of_not_lt h3
        all_goals intro hEq
        · exact absurd hEq (ne_of_lt h1)
        · omega
        · omega
        · omega
  · rw [if_neg h1]
    by_cases h2 : c Action.Stand < c Action.Double
    · rw [if_pos h2]
      by_cases h3 : c Action.Double < c Action.Split
      · rw [if_pos h3]
        refine ⟨?_, ?_⟩ <;> intro a <;> cases a <;> (try simp only [Action.idx])
        · exact le_of_lt (lt_trans h2 h3)
        · exact le_of_lt (lt_of_le_of_lt (le_of_not_lt h1) (lt_trans h2 h3))
        · exact le_of_lt h3
        · exact le_refl _
        all_goals intro hEq
        · exact absurd hEq (ne_of_lt (lt_trans h2 h3))
        · exact absurd hEq (ne_of_lt (lt_of_le_of_lt (le_of_not_lt h1) (lt_trans h2 h3)))
        · exact absurd hEq (ne_of_lt h3)
        · omega
      · rw [if_neg h3]
        refine ⟨?_, ?_⟩ <;> intro a <;> cases a <;> (try simp only [Action.idx])
        · exact le_of_lt h2
        · exact le_of_lt (lt_of_le_of_lt (le_of_not_lt h1) h2)
        · exact le_refl _
        · exact le_of_not_lt h3
        all_goals intro hEq
        · exact absurd hEq (ne_of_lt h2)
        · exact absurd hEq (ne_of_lt (lt_of_le_of_lt (le_of_not_lt h1) h2))
        · omega
        · omega
    · rw [if_neg h2]
      by_cases h3 : c Action.Stand < c Action.Split
      · rw [if_pos h3]
        refine ⟨?_, ?_⟩ <;> intro a <;> cases a <;> (try simp only [Action.idx])
        · exact le_of_lt h3
        · exact le_of_lt (lt_of_le_of_lt (le_of_not_lt h1) h3)
        · exact le_of_lt (lt_of_le_of_lt (le_of_not_lt h2) h3)
        · exact le_refl _
        all_goals intro hEq
        · exact absurd hEq (ne_of_lt h3)
        · exact absurd hEq (ne_of_lt (lt_of_le_of_lt (le_of_not_lt h1) h3))
        · exact absurd hEq (ne_of_lt (lt_of_le_of_lt (le_of_not_lt h2) h3))
        · omega
      · rw [if_neg h3]
        refine ⟨?_, ?_⟩ <;> intro a <;> cases a <;> (try simp only [Action.idx])
        · exact le_refl _
        · exact le_of_not_lt h1
        · exact le_of_not_lt h2
        · exact le_of_not_lt h3
        all_goals intro hEq
        all_goals omega

/-- `ev_stand` (src/perfect_strategy.rs:109-120): −1 for a busted hand before
`total` is consulted; otherwise win probability minus loss probability
against the dealer-outcome solver.  The fuel is handed to the dealer
recursion. -/
def ev_stand (fuel : Nat) (rules : BlackjackRules) (player_hand : CanonicalHand)
    (upcard : Nat) (deck : Deck) : Option Rat :=
  if player_hand = CanonicalHand.Busted then some (-1)
  else do
    let t ← player_hand.total
    let pd ← dealer_probabilities_beating fuel rules.hit_soft_17 t
      (TotalHashedDealerHand.from_single_card upcard) deck
    let p_player_win : Rat := 1 - pd.1 - pd.2
    pure (p_player_win - pd.1)

/-- The allowed-action mask built by `ev_hit` before recursing
(src/perfect_strategy.rs:129-131): only Stand and Hit. -/
def actions_allowed_after_hit : Action → Bool
  | Action.Stand => true
  | Action.Hit => true
  | _ => false

mutual

/-- `ev` (src/perfect_strategy.rs:61-107).  The `RULES` global of the crate
root (not among the given sources) is an explicit parameter; the memoization
attribute is dropped (the function is pure); the recursion is fuel-driven
with `none` on exhaustion, and the `assert!` on the Split/splits_allowed
invariant panics (`none`) exactly when the xor fails. -/
def ev : Nat → BlackjackRules → (Action → Bool) → CanonicalHand → Nat → Nat
    → Deck → Option EvCalcResult
  | 0, _, _, _, _, _, _ => none
  | fuel+1, rules, allowed_actions, player_hand, splits_allowed, upcard, deck =>
    if (allowed_actions Action.Split).xor (splits_allowed == 0) = false then none
    else if player_hand = CanonicalHand.Busted then
      some { ev := ((-1 : Rat) : WithBot Rat), action := Action.Stand
             choices := fun a =>
               if a = Action.Stand then ((-1 : Rat) : WithBot Rat) else ⊥ }
    else do
      let cStand ←
        if allowed_actions Action.Stand then
          (ev_stand (fuel+1) rules player_hand upcard deck).map
            (fun q => (q : WithBot Rat))
        else pure (⊥ : WithBot Rat)
      let cHit ←
        if allowed_actions Action.Hit then
          ev_hit fuel rules player_hand upcard deck true
        else pure (⊥ : WithBot Rat)
      let cDouble ←
        if allowed_actions Action.Double then
          ev_double fuel rules player_hand upcard deck
        else pure (⊥ : WithBot Rat)
      let cSplit ←
        if allowed_actions Action.Split then
          ev_split fuel rules player_hand splits_allowed upcard deck
        else pure (⊥ : WithBot Rat)
      let choices : Action → WithBot Rat := fun a =>
        match a with
        | Action.Stand => cStand
        | Action.Hit => cHit
        | Action.Double => cDouble
        | Action.Split => cSplit
      let max_ev_choice := maxEvChoice choices
      pure { ev := choices max_ev_choice, action := max_ev_choice
             choices := choices }
termination_by structural fuel _ _ _ _ _ _ => fuel

/-- `ev_hit` (src/perfect_strategy.rs:122-150): −1 on a busted hand,
otherwise the probability-weighted EV over the next card, recursing into `ev`
with only Stand and Hit allowed, or into stand-EV when the hit is terminal
(the Double case). -/
def ev_hit : Nat → BlackjackRules → CanonicalHand → Nat → Deck → Bool
    → Option (WithBot Rat)
  | 0, _, _, _, _, _ => none
  | fuel+1, rules, player_hand, upcard, deck, can_act_again =>
    if player_hand = CanonicalHand.Busted then
      some ((-1 : Rat) : WithBot Rat)
    else do
      let p_next_card_is ← p_next_card_is_each deck true true
      RANKS.foldlM
        (fun cumul_ev next_card =>
          if p_next_card_is next_card ≤ 0 then pure cumul_ev
          else if can_act_again then do
            let r ← ev fuel rules actions_allowed_after_hit
              (player_hand.addRank next_card) 0 upcard (deck.removed next_card)
            pure (cumul_ev + (p_next_card_is next_card : WithBot Rat) * r.ev)
          else do
            let q ← ev_stand (fuel+1) rules (player_hand.addRank next_card)
              upcard (deck.removed next_card)
            pure (cumul_ev
              + (p_next_card_is next_card : WithBot Rat) * (q : WithBot Rat)))
        ((0 : WithBot Rat))
termination_by structural fuel _ _ _ _ _ => fuel

/-- `ev_double` (src/perfect_strategy.rs:152-155): twice the one-card
(terminal) hit EV. -/
def ev_double : Nat → BlackjackRules → CanonicalHand → Nat → Deck
    → Option (WithBot Rat)
  | 0, _, _, _, _ => none
  | fuel+1, rules, player_hand, upcard, deck => do
    let h ← ev_hit fuel rules player_hand upcard deck false
    pure (2 * h)
termination_by structural fuel _ _ _ _ => fuel

/-- `ev_split` (src/perfect_strategy.rs:157-200): the summed EV of the two
split hands; asserts `splits_allowed > 0` and panics on a non-pair hand, both
embedded as `none`. -/
def ev_split : Nat → BlackjackRules → CanonicalHand → Nat → Nat → Deck
    → Option (WithBot Rat)
  | 0, _, _, _, _, _ => none
  | fuel+1, rules, player_hand, splits_allowed, upcard, deck =>
    if ¬ 0 < splits_allowed then none
    else
      match player_hand with
      | CanonicalHand.Pair split_card => do
        let can_act_after := rules.hit_split_aces || !(split_card == A)
        let p_next_card_is ← p_next_card_is_each deck true true
        let cumul_ev ← RANKS.foldlM
          (fun cumul_ev new_second_card =>
            if p_next_card_is new_second_card ≤ 0 then pure cumul_ev
            else
              let split_again := (decide (1 < splits_allowed))
                && (new_second_card == split_card)
              let actions_allowed_after : Action → Bool := fun a =>
                match a with
                | Action.Stand => true
                | Action.Hit => can_act_after
                | Action.Double => false
                | Action.Split => split_again
              let splits_allowed_after :=
                if split_again then splits_allowed - 1 else 0
              if can_act_after then do
                let r ← ev fuel rules actions_allowed_after
                  ((CanonicalHand.Single split_card).addRank new_second_card)
                  splits_allowed_after upcard (deck.removed new_second_card)
                pure (cumul_ev
                  + r.ev * (p_next_card_is new_second_card : WithBot Rat))
              else do
                let q ← ev_stand (fuel+1) rules
                  ((CanonicalHand.Single split_card).addRank new_second_card)
                  upcard (deck.removed new_second_card)
                pure (cumul_ev
                  + (q : WithBot Rat)
                    * (p_next_card_is new_second_card : WithBot Rat)))
          ((0 : WithBot Rat))
        pure (cumul_ev * 2)
      | _ => none
termination_by structural fuel _ _ _ _ _ => fuel

end

/-- The per-action EV map assembled by `ev` from the four computed values. -/
def evChoicesFun (y y1 y2 y3 : WithBot Rat) : Action → WithBot Rat := fun a =>
  match a with
  | Action.Stand => y
  | Action.Hit => y1
  | Action.Double => y2
  | Action.Split => y3

/-- The result record `ev` builds from its per-action EV map. -/
def mkEvResult (y y1 y2 y3 : WithBot Rat) : EvCalcResult :=
  { ev := evChoicesFun y y1 y2 y3 (maxEvChoice (evChoicesFun y y1 y2 y3))
    action := maxEvChoice (evChoicesFun y y1 y2 y3)
    choices := evChoicesFun y y1 y2 y3 }

theorem bind4_some_shape (o1 o2 o3 o4 : Option (WithBot Rat))
    (r : EvCalcResult)
    (h : (o1.bind fun y => o2.bind fun y1 => o3.bind fun y2 =>
        o4.bind fun y3 => some (mkEvResult y y1 y2 y3)) = some r) :
    ∃ y y1 y2 y3, r = mkEvResult y y1 y2 y3 := by
  cases o1 <;> cases o2 <;> cases o3 <;> cases o4 <;>
    simp only [Option.none_bind, Option.some_bind] at h <;>
    first
      | exact Option.noConfusion h
      | exact ⟨_, _, _, _, (Option.some.inj h).symm⟩

/-- C4: For every input to the EV solver ev (allowed actions, non-Busted
player hand, splits allowed, upcard, deck), the returned best_action is the
argmax of the per-action EV map, and when several actions attain the maximal
EV the returned action is the earliest in the fixed priority order Stand,
Hit, Double, Split. -/
theorem C4_best_action_argmax (fuel : Nat) (rules : BlackjackRules)
    (allowed_actions : Action → Bool) (player_hand : CanonicalHand)
    (splits_allowed upcard : Nat) (deck : Deck) (r : EvCalcResult)
    (hB : player_hand ≠ CanonicalHand.Busted)
    (h : ev fuel rules allowed_actions player_hand splits_allowed upcard deck
      = some r) :
    (∀ a, r.choices a ≤ r.choices r.action) ∧
    (∀ a, r.choices a = r.choices r.action → r.action.idx ≤ a.idx) := by
  match fuel with
  | 0 => exact Option.noConfusion h
  | fuel+1 =>
    simp only [ev] at h
    rcases ite_eq_iff.mp h with ⟨hXor, hnone⟩ | ⟨hXor, h2⟩
    · exact Option.noConfusion hnone
    · rcases ite_eq_iff.mp h2 with ⟨hBusted, _⟩ | ⟨hBusted, h3⟩
      · exact absurd hBusted hB
      · split_ifs at h3 <;>
          (obtain ⟨y, y1, y2, y3, hr⟩ := bind4_some_shape _ _ _ _ _ h3
           subst hr
           exact maxEvChoice_spec _)

theorem C4_witness :
    (CanonicalHand.Hard2Card 12 ≠ CanonicalHand.Busted) ∧
    ev 1 RULES_6D_H17_DAS_DANY (fun _ => false) (CanonicalHand.Hard2Card 12)
        0 2 (fun _ => 1)
      = some { ev := (⊥ : WithBot Rat), action := Action.Stand
               choices := fun a =>
                 match a with
                 | Action.Stand => (⊥ : WithBot Rat)
                 | Action.Hit => ⊥
                 | Action.Double => ⊥
                 | Action.Split => ⊥ } ∧
    ((∀ a, (fun a =>
        match a with
        | Action.Stand => (⊥ : WithBot Rat)
        | Action.Hit => ⊥
        | Action.Double => ⊥
        | Action.Split => ⊥) a ≤ (⊥ : WithBot Rat)) ∧
     (∀ a, (fun a =>
        match a with
        | Action.Stand => (⊥ : WithBot Rat)
        | Action.Hit => ⊥
        | Action.Double => ⊥
        | Action.Split => ⊥) a = (⊥ : WithBot Rat) →
          Action.Stand.idx ≤ a.idx)) :=
  ⟨by decide, rfl,
   C4_best_action_argmax 1 RULES_6D_H17_DAS_DANY (fun _ => false)
     (CanonicalHand.Hard2Card 12) 0 2 (fun _ => 1) _ (by decide) rfl⟩

/-- C9 is refuted by this concrete invocation: the EV solver, asked to
evaluate a non-busted hand with no remaining legal action, does not terminate
the process; it returns a result whose best EV is negative infinity with
action Stand. -/
theorem C9_counterexample :
    (ev 1 RULES_6D_H17_DAS_DANY (fun _ => false) (CanonicalHand.Hard2Card 16)
        0 2 (fun _ => 1)).isSome = true ∧
    (ev 1 RULES_6D_H17_DAS_DANY (fun _ => false) (CanonicalHand.Hard2Card 16)
        0 2 (fun _ => 1)).map (fun r => (r.ev, r.action))
      = some ((⊥ : WithBot Rat), Action.Stand) :=
  ⟨rfl, rfl⟩

/-- C9 (amended): When the EV solver is asked to evaluate a non-Busted hand
with no remaining legal action (all actions disallowed and splits_allowed =
0), it returns normally with every per-action EV equal to negative infinity,
best EV negative infinity, and action Stand; the process is not terminated.
(Termination with a message happens only at the solver's Split/splits_allowed
assertion and at the negative-infinity check on the chosen basic-strategy
action in strategy_comparison::decide; the simulation's perfect-strategy path
consumes the returned action without any such check.) -/
theorem C9_no_legal_action_returns (fuel : Nat) (rules : BlackjackRules)
    (player_hand : CanonicalHand) (upcard : Nat) (deck : Deck)
    (hB : player_hand ≠ CanonicalHand.Busted) :
    ev (fuel+1) rules (fun _ => false) player_hand 0 upcard deck
      = some { ev := (⊥ : WithBot Rat), action := Action.Stand
               choices := fun a =>
                 match a with
                 | Action.Stand => (⊥ : WithBot Rat)
                 | Action.Hit => ⊥
                 | Action.Double => ⊥
                 | Action.Split => ⊥ } := by
  simp only [ev]
  rw [if_neg (by simp), if_neg hB]
  rfl

theorem C9_witness :
    (CanonicalHand.Hard2Card 7 ≠ CanonicalHand.Busted) ∧
    ev 1 RULES_1D_H17_NDAS_D10 (fun _ => false) (CanonicalHand.Hard2Card 7)
        0 3 (fun _ => 2)
      = some { ev := (⊥ : WithBot Rat), action := Action.Stand
               choices := fun a =>
                 match a with
                 | Action.Stand => (⊥ : WithBot Rat)
                 | Action.Hit => ⊥
                 | Action.Double => ⊥
                 | Action.Split => ⊥ } :=
  ⟨by decide,
   C9_no_legal_action_returns 0 RULES_1D_H17_NDAS_D10
     (CanonicalHand.Hard2Card 7) 3 (fun _ => 2) (by decide)⟩

/-- C10: CanonicalHand::total panics exactly on the Busted variant and
returns a value on every other variant; within the EV solver this panic is
unreachable: ev_stand applied to a Busted player hand returns −1 before total
is called, so the total of any hand ev_stand consults is defined. -/
theorem C10_total_panic_unreachable (h : CanonicalHand) (fuel : Nat)
    (rules : BlackjackRules) (upcard : Nat) (deck : Deck) :
    (CanonicalHand.total h = none ↔ h = CanonicalHand.Busted) ∧
    (ev_stand fuel rules CanonicalHand.Busted upcard deck = some (-1)) ∧
    (h ≠ CanonicalHand.Busted → (CanonicalHand.total h).isSome = true) := by
  refine ⟨?_, ?_, ?_⟩
  · cases h <;> simp [CanonicalHand.total]
  · rfl
  · intro hB
    cases h <;> first | rfl | exact absurd rfl hB

theorem C10_witness :
    ((CanonicalHand.total (CanonicalHand.Soft2Card 17)).isSome = true) ∧
    ev_stand 0 RULES_6D_H17_DAS_DANY CanonicalHand.Busted 5 (fun _ => 3)
      = some (-1) :=
  ⟨(C10_total_panic_unreachable (CanonicalHand.Soft2Card 17) 0
      RULES_6D_H17_DAS_DANY 5 (fun _ => 3)).2.2 (by decide),
   (C10_total_panic_unreachable (CanonicalHand.Soft2Card 17) 0
      RULES_6D_H17_DAS_DANY 5 (fun _ => 3)).2.1⟩

/-- The two chart byte assets embedded with the executable
(`BS_TABLE_CSV_1D_H17_NDAS_D10` and `BS_TABLE_CSV_6D_H17_DAS_DANY`,
src/basic_strategy.rs:9-10).  Their contents are external byte assets; only
which one `builtin` selects matters here. -/
inductive BuiltinChartTable : Type where
  | bs_1d_h17_ndas_d10 : BuiltinChartTable
  | bs_6d_h17_das_dany : BuiltinChartTable
deriving DecidableEq, Repr

/-- The rule-set match of `BasicStrategyChart::builtin`
(src/basic_strategy.rs:35-56): two struct patterns with `..` rest-patterns,
tried in order; the catch-all arm panics ("No basic strategy chart for
rules!"), embedded as `none`.  The first pattern names only decks,
hit_soft_17, double_any_hands, double_hard_hands_thru_11 and
double_after_split; the second only decks, hit_soft_17, double_any_hands and
double_after_split. -/
def builtin (rules : BlackjackRules) : Option BuiltinChartTable :=
  if rules.decks = 1 ∧ rules.hit_soft_17 = true
      ∧ rules.double_any_hands = false
      ∧ rules.double_hard_hands_thru_11 = 10
      ∧ rules.double_after_split = false
  then some BuiltinChartTable.bs_1d_h17_ndas_d10
  else if rules.decks = 6 ∧ rules.hit_soft_17 = true
      ∧ rules.double_any_hands = true ∧ rules.double_after_split = true
  then some BuiltinChartTable.bs_6d_h17_das_dany
  else none

/-- C6 is refuted at this concrete input: a rule record differing from the
1-deck preset only in split_hands_limit still receives the preset's chart,
so two rule sets that differ in a field can share a built-in chart. -/
theorem C6_counterexample :
    builtin { RULES_1D_H17_NDAS_D10 with split_hands_limit := 5 }
      = some BuiltinChartTable.bs_1d_h17_ndas_d10 ∧
    builtin RULES_1D_H17_NDAS_D10
      = some BuiltinChartTable.bs_1d_h17_ndas_d10 ∧
    ({ RULES_1D_H17_NDAS_D10 with split_hands_limit := 5 } : BlackjackRules)
      ≠ RULES_1D_H17_NDAS_D10 := by
  refine ⟨rfl, rfl, ?_⟩
  intro hcon
  have h5 := congrArg BlackjackRules.split_hands_limit hcon
  simp [RULES_1D_H17_NDAS_D10] at h5

/-- C6 (amended): BasicStrategyChart::builtin selects a built-in chart by
matching only a subset of rule fields, in order: the 1-deck chart exactly
when decks = 1, hit_soft_17, not double_any_hands,
double_hard_hands_thru_11 = 10 and not double_after_split; otherwise the
6-deck chart exactly when decks = 6, hit_soft_17, double_any_hands and
double_after_split; otherwise it panics (a user-surfaced error).  Rule sets
differing only in unmatched fields (split_hands_limit, blackjack_multiplier,
shuffle_at_cards, split_aces_limit, hit_split_aces) share a chart; no
interpolation is performed. -/
theorem C6_builtin_subset_match (rules : BlackjackRules) :
    (builtin rules = some BuiltinChartTable.bs_1d_h17_ndas_d10
      ↔ (rules.decks = 1 ∧ rules.hit_soft_17 = true
          ∧ rules.double_any_hands = false
          ∧ rules.double_hard_hands_thru_11 = 10
          ∧ rules.double_after_split = false)) ∧
    (builtin rules = some BuiltinChartTable.bs_6d_h17_das_dany
      ↔ (¬(rules.decks = 1 ∧ rules.hit_soft_17 = true
            ∧ rules.double_any_hands = false
            ∧ rules.double_hard_hands_thru_11 = 10
            ∧ rules.double_after_split = false)
          ∧ (rules.decks = 6 ∧ rules.hit_soft_17 = true
            ∧ rules.double_any_hands = true
            ∧ rules.double_after_split = true))) ∧
    (builtin rules = none
      ↔ (¬(rules.decks = 1 ∧ rules.hit_soft_17 = true
            ∧ rules.double_any_hands = false
            ∧ rules.double_hard_hands_thru_11 = 10
            ∧ rules.double_after_split = false)
          ∧ ¬(rules.decks = 6 ∧ rules.hit_soft_17 = true
            ∧ rules.double_any_hands = true
            ∧ rules.double_after_split = true))) := by
  unfold builtin
  split_ifs with h1 h2 <;> simp_all

/-- `struct Hand` from `src/hand.rs`: the ordered card sequence. -/
structure Hand : Type where
  cards : List Nat
deriving DecidableEq, Repr

namespace Hand

/-- `Hand::_total_internal` (src/hand.rs:52-68): per-card values 10 for T, 1
for A, n otherwise (the inline match coincides with `additive_value`), with
the ace counted high when that keeps the total at most 21. -/
def total_internal (h : Hand) : Nat × Bool :=
  let contains_ace := h.cards.contains A
  let total := (h.cards.map additive_value).sum
  if contains_ace = true ∧ total ≤ 11 then (total + 10, true) else (total, false)

/-- `Hand::total` (src/hand.rs:32-34). -/
def total (h : Hand) : Nat := h.total_internal.1

/-- `Hand::is_soft` (src/hand.rs:37-39). -/
def is_soft (h : Hand) : Bool := h.total_internal.2

/-- `Hand::is_pair` (src/hand.rs:44-50): the paired rank when the hand is
exactly two equal ranks. -/
def is_pair (h : Hand) : Option Nat :=
  match h.cards with
  | [a, b] => if a = b then some a else none
  | _ => none

end Hand

/-- `enum BasicStrategyHand` from `src/basic_strategy.rs` (lines 12-17). -/
inductive BasicStrategyHand : Type where
  | Hard : Nat → BasicStrategyHand
  | Soft : Nat → BasicStrategyHand
  | Pair : Nat → BasicStrategyHand
deriving DecidableEq, Repr

/-- `struct BasicStrategyChartKey` from `src/basic_strategy.rs`
(lines 21-25). -/
structure BasicStrategyChartKey : Type where
  hand : BasicStrategyHand
  upcard : Nat
deriving DecidableEq, Repr

/-- `BasicStrategyHand::from_unsplittable` (src/basic_strategy.rs:239-245). -/
def BasicStrategyHand.from_unsplittable (hand : Hand) : BasicStrategyHand :=
  if hand.is_soft then BasicStrategyHand.Soft hand.total
  else BasicStrategyHand.Hard hand.total

/-- `BasicStrategyHand::from` (src/basic_strategy.rs:231-237); named
`from_hand` because `from` is reserved in Lean. -/
def BasicStrategyHand.from_hand (hand : Hand) : BasicStrategyHand :=
  match hand.is_pair with
  | some paired_card => BasicStrategyHand.Pair paired_card
  | none => BasicStrategyHand.from_unsplittable hand

/-- The `chart` HashMap of a loaded `BasicStrategyChart`
(src/basic_strategy.rs:30), as its lookup function.  The map's contents come
from parsing the embedded CSV byte assets, which are external to the core;
every claim under study holds for an arbitrary loaded chart. -/
abbrev BasicStrategyChartMap : Type :=
  BasicStrategyChartKey → Option (List Action)

/-- `BasicStrategyChart::basic_plays` (src/basic_strategy.rs:107-143): look
up the hand's class; a missing entry panics ("No actions found for the
hand"), and `actions[0]` on an empty chart row panics, both embedded as
`none`.  When the primary action is Split, the actions for the hand
reclassified as unsplittable are appended; a missing reclassified entry is
tolerated. -/
def basic_plays (chart : BasicStrategyChartMap) (hand : Hand)
    (dealer_up : Nat) : Option (List Action) :=
  match chart ⟨BasicStrategyHand.from_hand hand, dealer_up⟩ with
  | none => none
  | some actions =>
    match actions with
    | [] => none
    | a0 :: _ =>
      if a0 = Action.Split then
        match chart ⟨BasicStrategyHand.from_unsplittable hand, dealer_up⟩ with
        | some v => some (actions ++ v)
        | none => some actions
      else some actions

/-- `BasicStrategyChart::context_basic_play` (src/basic_strategy.rs:147-168):
the first action of the basic_plays list whose contextual condition holds;
the `unwrap_or_else` panic when no action is allowed is embedded as `none`. -/
def context_basic_play (chart : BasicStrategyChartMap)
    (rules : BlackjackRules) (hand : Hand) (dealer_up : Nat)
    (num_hands : Nat) : Option Action :=
  let can_double := (hand.cards.length == 2)
    && (rules.double_after_split || num_hands == 1)
    && (rules.double_any_hands
      || (decide (rules.double_hard_hands_thru_11 ≤ hand.total)
          && decide (hand.total ≤ 11)))
  let is_splittable_pair := decide (num_hands <
    match hand.is_pair with
    | some p =>
        if p = A then rules.split_aces_limit else rules.split_hands_limit
    | none => 1)
  (basic_plays chart hand dealer_up).bind fun action_list =>
    action_list.find? fun a =>
      match a with
      | Action.Double => can_double
      | Action.Split => is_splittable_pair
      | _ => true

/-- The contextual legality of each action, as the claim states it: Stand
and Hit always; Double only for a two-card hand meeting the rules' doubling
conditions; Split only for a splittable pair under the applicable
split-hands limit. -/
def allowed_in_context (rules : BlackjackRules) (hand : Hand)
    (num_hands : Nat) : Action → Prop
  | Action.Stand => True
  | Action.Hit => True
  | Action.Double => hand.cards.length = 2
      ∧ (rules.double_after_split = true ∨ num_hands = 1)
      ∧ (rules.double_any_hands = true
        ∨ (rules.double_hard_hands_thru_11 ≤ hand.total ∧ hand.total ≤ 11))
  | Action.Split => num_hands <
      (match hand.is_pair with
        | some p =>
            if p = A then rules.split_aces_limit else rules.split_hands_limit
        | none => 1)

theorem find?_first {α : Type} (p : α → Bool) :
    ∀ (l : List α) (a : α), l.find? p = some a →
      ∃ pre post, l = pre ++ a :: post ∧ p a = true ∧ ∀ b ∈ pre, p b = false := by
  intro l
  induction l with
  | nil => intro a h; exact Option.noConfusion h
  | cons x xs ih =>
      intro a h
      by_cases hx : p x = true
      · rw [List.find?_cons_of_pos _ hx] at h
        obtain rfl := Option.some.inj h
        exact ⟨[], xs, rfl, hx, by simp⟩
      · rw [List.find?_cons_of_neg _ (by simpa using hx)] at h
        obtain ⟨pre, post, heq, hpa, hpre⟩ := ih a h
        refine ⟨x :: pre, post, by rw [heq]; rfl, hpa, ?_⟩
        intro b hb
        rcases List.mem_cons.mp hb with rfl | hb
        · simpa using hx
        · exact hpre b hb

theorem context_pred_iff_allowed (rules : BlackjackRules) (hand : Hand)
    (num_hands : Nat) (a : Action) :
    ((match a with
      | Action.Double => (hand.cards.length == 2)
          && (rules.double_after_split || num_hands == 1)
          && (rules.double_any_hands
            || (decide (rules.double_hard_hands_thru_11 ≤ hand.total)
                && decide (hand.total ≤ 11)))
      | Action.Split => decide (num_hands <
          match hand.is_pair with
          | some p =>
              if p = A then rules.split_aces_limit
              else rules.split_hands_limit
          | none => 1)
      | _ => true) = true)
      ↔ allowed_in_context rules hand num_hands a := by
  cases a <;>
    simp [allowed_in_context, Bool.and_eq_true, Bool.or_eq_true,
      decide_eq_true_eq, and_assoc]

/-- C8: For every chart, rule set, hand, upcard, and hand count,
context_basic_play returns the first action of the basic_plays list that is
allowed in context (Stand and Hit always; Double only for a two-card hand
satisfying the rules' doubling conditions; Split only for a splittable pair
under the applicable split-hands limit), and it errors (panics) when no
action in the list is allowed, as it does when basic_plays itself errors. -/
theorem C8_context_basic_play_first_allowed (chart : BasicStrategyChartMap)
    (rules : BlackjackRules) (hand : Hand) (dealer_up num_hands : Nat) :
    (∀ a, context_basic_play chart rules hand dealer_up num_hands = some a →
      ∃ l pre post, basic_plays chart hand dealer_up = some l
        ∧ l = pre ++ a :: post
        ∧ allowed_in_context rules hand num_hands a
        ∧ ∀ b ∈ pre, ¬ allowed_in_context rules hand num_hands b) ∧
    (∀ l, basic_plays chart hand dealer_up = some l →
      (∀ b ∈ l, ¬ allowed_in_context rules hand num_hands b) →
      context_basic_play chart rules hand dealer_up num_hands = none) ∧
    (basic_plays chart hand dealer_up = none →
      context_basic_play chart rules hand dealer_up num_hands = none) := by
  refine ⟨?_, ?_, ?_⟩
  · intro a h
    unfold context_basic_play at h
    obtain ⟨l, hl, hfind⟩ := Option.bind_eq_some.mp h
    obtain ⟨pre, post, heq, hpa, hpre⟩ := find?_first _ l a hfind
    refine ⟨l, pre, post, hl, heq,
      (context_pred_iff_allowed rules hand num_hands a).mp hpa, ?_⟩
    intro b hb hcon
    have := (context_pred_iff_allowed rules hand num_hands b).mpr hcon
    rw [hpre b hb] at this
    exact Bool.noConfusion this
  · intro l hl hnone
    unfold context_basic_play
    rw [hl, Option.some_bind]
    rw [List.find?_eq_none]
    intro b hb
    intro hcon
    exact hnone b hb ((context_pred_iff_allowed rules hand num_hands b).mp hcon)
  · intro hnone
    unfold context_basic_play
    rw [hnone, Option.none_bind]

theorem C8_witness :
    context_basic_play
      (fun k => if k = ⟨BasicStrategyHand.Hard 9, 3⟩
        then some [Action.Double, Action.Hit] else none)
      RULES_1D_H17_NDAS_D10 ⟨[4, 5]⟩ 3 1 = some Action.Hit ∧
    (∃ l pre post,
      basic_plays
        (fun k => if k = ⟨BasicStrategyHand.Hard 9, 3⟩
          then some [Action.Double, Action.Hit] else none)
        ⟨[4, 5]⟩ 3 = some l
      ∧ l = pre ++ Action.Hit :: post
      ∧ allowed_in_context RULES_1D_H17_NDAS_D10 ⟨[4, 5]⟩ 1 Action.Hit
      ∧ ∀ b ∈ pre, ¬ allowed_in_context RULES_1D_H17_NDAS_D10 ⟨[4, 5]⟩ 1 b) :=
  ⟨rfl,
   (C8_context_basic_play_first_allowed
      (fun k => if k = ⟨BasicStrategyHand.Hard 9, 3⟩
        then some [Action.Double, Action.Hit] else none)
      RULES_1D_H17_NDAS_D10 ⟨[4, 5]⟩ 3 1).1 Action.Hit rfl⟩

end BJ
